import Mathlib

/-!
Verification of the Mamdani fuzzy sprinkler controller in fuzzy.py.

The repository configures a fuzzy control system over scikit-fuzzy:
two antecedent variables (Soil Moisture over 0..100 step 1, Temperature
over 0..50 step 1), one consequent variable (Water Sprinkling over
0..100 step 1), triangular membership functions, five rules combined
with Zadeh AND (min), Mamdani correlation-min clipping, pointwise max
aggregation, and discrete centroid defuzzification.  The configuration
(universes, breakpoints, rules) is taken from fuzzy.py lines 15-41; the
inference engine itself is library code not present in the repository,
so it is modelled from the specification.  All arithmetic is carried
out exactly over the rationals.
-/

namespace Sprinkler

/-- Modelled from the spec: triangular membership function with
breakpoints (a, b, c).  Degree at x is 0 outside [a, c], a linear ramp
(x - a) / (b - a) on (a, b), a linear ramp (c - x) / (c - b) on (b, c),
and 1 at x = b (also in the degenerate cases a = b or b = c, which give
one-sided ramps).  This models fuzz.trimf, which is not part of the
repository source. -/
def trimf (a b c x : ℚ) : ℚ :=
  if x = b then 1
  else if a < x ∧ x < b then (x - a) / (b - a)
  else if b < x ∧ x < c then (c - x) / (c - b)
  else 0

/-- A crisp input assignment: one value per antecedent variable
(Soil Moisture and Temperature), as set on lines 83-84 of fuzzy.py. -/
structure Inputs where
  soil : ℚ
  temp : ℚ
deriving DecidableEq

/-- The linguistic terms of the two input variables
(fuzzy.py lines 20-26). -/
inductive InTerm
  | dry | moist | wet | cold | warm | hot
deriving DecidableEq

/-- Membership degree of each input term, with the breakpoints
configured on lines 20-26 of fuzzy.py. -/
def InTerm.degree : InTerm → Inputs → ℚ
  | .dry, i => trimf 0 0 50 i.soil
  | .moist, i => trimf 20 50 80 i.soil
  | .wet, i => trimf 50 100 100 i.soil
  | .cold, i => trimf 0 0 20 i.temp
  | .warm, i => trimf 10 25 40 i.temp
  | .hot, i => trimf 30 50 50 i.temp

/-- The linguistic terms of the output variable
(fuzzy.py lines 28-30). -/
inductive OutTerm
  | low | medium | high
deriving DecidableEq

/-- Membership degree of each output term, with the breakpoints
configured on lines 28-30 of fuzzy.py. -/
def OutTerm.degree : OutTerm → ℚ → ℚ
  | .low, z => trimf 0 0 50 z
  | .medium, z => trimf 20 50 80 z
  | .high, z => trimf 50 100 100 z

/-- Modelled from the spec: a rule antecedent is an expression tree
over term references combined with AND / OR / NOT; this models the
antecedent expressions built with the overloaded operators of
skfuzzy.control, which are not part of the repository source. -/
inductive AntExpr
  | leaf (t : InTerm)
  | and (l r : AntExpr)
  | or (l r : AntExpr)
  | not (e : AntExpr)
deriving DecidableEq

/-- Modelled from the spec: recursive evaluation of an antecedent
expression — AND is min (Zadeh), OR is max, NOT is one minus the
child. -/
def AntExpr.eval : AntExpr → Inputs → ℚ
  | .leaf t, i => t.degree i
  | .and l r, i => min (l.eval i) (r.eval i)
  | .or l r, i => max (l.eval i) (r.eval i)
  | .not e, i => 1 - e.eval i

/-- A rule: an antecedent expression and one consequent output term,
as built by ctrl.Rule on lines 33-37 of fuzzy.py. -/
structure Rule where
  ant : AntExpr
  cons : OutTerm
deriving DecidableEq

/-- Firing strength of a rule at a given input assignment. -/
def firing (r : Rule) (i : Inputs) : ℚ := r.ant.eval i

/-- Rule 1 (fuzzy.py line 33): IF dry AND hot THEN high. -/
def rule1 : Rule := ⟨.and (.leaf .dry) (.leaf .hot), .high⟩

/-- Rule 2 (fuzzy.py line 34): IF dry AND warm THEN medium. -/
def rule2 : Rule := ⟨.and (.leaf .dry) (.leaf .warm), .medium⟩

/-- Rule 3 (fuzzy.py line 35): IF moist AND warm THEN medium. -/
def rule3 : Rule := ⟨.and (.leaf .moist) (.leaf .warm), .medium⟩

/-- Rule 4 (fuzzy.py line 36): IF moist AND cold THEN low. -/
def rule4 : Rule := ⟨.and (.leaf .moist) (.leaf .cold), .low⟩

/-- Rule 5 (fuzzy.py line 37): IF wet THEN low. -/
def rule5 : Rule := ⟨.leaf .wet, .low⟩

/-- The rule base handed to ctrl.ControlSystem (fuzzy.py line 40). -/
def rules : List Rule := [rule1, rule2, rule3, rule4, rule5]

/-- Modelled from the spec: the clipped consequent membership of a rule
(Mamdani correlation-min): the pointwise minimum of the firing strength
and the consequent term degree. -/
def clipped (r : Rule) (i : Inputs) (z : ℚ) : ℚ :=
  min (firing r i) (r.cons.degree z)

/-- Modelled from the spec: pointwise max aggregation of the clipped
consequents of a list of rules (fuzzy OR across rules). -/
def aggregatedWith (rs : List Rule) (i : Inputs) (z : ℚ) : ℚ :=
  (rs.map (fun r => clipped r i z)).foldr max 0

/-- The aggregated output curve of the configured rule base. -/
def aggregated (i : Inputs) (z : ℚ) : ℚ := aggregatedWith rules i z

/-- The output universe: 0, 1, ..., 100 at step 1
(np.arange(0, 101, 1) on line 17 of fuzzy.py). -/
def outUniverse : List ℚ := (List.range 101).map (fun n : ℕ => (n : ℚ))

/-- Modelled from the spec: discrete centroid defuzzification — the sum
of x * f(x) over the sample points of the output universe divided by
the sum of f(x); reports failure (none) when the denominator is zero,
the NoApplicableRule / DegenerateAggregate condition. -/
def centroid (f : ℚ → ℚ) : Option ℚ :=
  if (outUniverse.map f).sum = 0 then none
  else some ((outUniverse.map (fun z => z * f z)).sum / (outUniverse.map f).sum)

/-- Full inference for an arbitrary rule list: aggregate the clipped
consequents and defuzzify by discrete centroid. -/
def inferWith (rs : List Rule) (i : Inputs) : Option ℚ :=
  centroid (aggregatedWith rs i)

/-- Full inference with the configured rule base, as performed by
sprinkler.compute (fuzzy.py lines 82-85). -/
def infer (i : Inputs) : Option ℚ := inferWith rules i

/-- Modelled from the spec: the state retained by a
ctrl.ControlSystemSimulation object between compute calls.  Per the
lifecycle section of the spec the only state kept across calls is the
result of the last inference (for introspection); the rule base itself
is immutable. -/
structure SimState where
  lastOutput : Option ℚ
deriving DecidableEq

/-- The simulation state before any compute call. -/
def initState : SimState := ⟨none⟩

/-- Modelled from the spec: one compute call on the simulation object —
the crisp result depends only on the inputs and the immutable rule
base, and the state is replaced by the fresh result. -/
def compute (_s : SimState) (i : Inputs) : Option ℚ × SimState :=
  (infer i, ⟨infer i⟩)

/-- Running a sequence of compute calls on one simulation object,
threading the state, as the loops on lines 82-85 and 250-253 of
fuzzy.py reuse the single sprinkler object. -/
def computeSeq (s : SimState) : List Inputs → List (Option ℚ) × SimState
  | [] => ([], s)
  | i :: is =>
    let p := compute s i
    let q := computeSeq p.2 is
    (p.1 :: q.1, q.2)

/-!
Integer shadow of the pipeline.  Every membership degree produced by
the configured system is a rational with denominator dividing 300
(the slopes of the nine triangles are 1/50, 1/30, 1/20 and 1/15), so
the whole pipeline can be mirrored on integers scaled by 300.  The
shadow is proved equal (up to the factor 300) to the rational pipeline
below and makes the concrete inferences decidable by kernel reduction
on integers.
-/

/-- Integer shadow of trimf: 300 times the degree, for integer
breakpoints whose side lengths divide 300 and an integer argument. -/
def trimfZ (a b c x : ℤ) : ℤ :=
  if x = b then 300
  else if a < x ∧ x < b then 300 / (b - a) * (x - a)
  else if b < x ∧ x < c then 300 / (c - b) * (c - x)
  else 0

/-- Integer shadow of the input term degrees (scaled by 300). -/
def InTerm.degreeZ : InTerm → ℤ → ℤ → ℤ
  | .dry, s, _ => trimfZ 0 0 50 s
  | .moist, s, _ => trimfZ 20 50 80 s
  | .wet, s, _ => trimfZ 50 100 100 s
  | .cold, _, t => trimfZ 0 0 20 t
  | .warm, _, t => trimfZ 10 25 40 t
  | .hot, _, t => trimfZ 30 50 50 t

/-- Integer shadow of the output term degrees (scaled by 300). -/
def OutTerm.degreeZ : OutTerm → ℤ → ℤ
  | .low, z => trimfZ 0 0 50 z
  | .medium, z => trimfZ 20 50 80 z
  | .high, z => trimfZ 50 100 100 z

/-- Integer shadow of antecedent evaluation (scaled by 300). -/
def AntExpr.evalZ : AntExpr → ℤ → ℤ → ℤ
  | .leaf tm, s, t => tm.degreeZ s t
  | .and l r, s, t => min (l.evalZ s t) (r.evalZ s t)
  | .or l r, s, t => max (l.evalZ s t) (r.evalZ s t)
  | .not e, s, t => 300 - e.evalZ s t

/-- Integer shadow of the clipped consequent of a rule (scaled). -/
def clippedZ (r : Rule) (s t z : ℤ) : ℤ :=
  min (r.ant.evalZ s t) (r.cons.degreeZ z)

/-- Integer shadow of the aggregated output curve (scaled). -/
def aggregatedZ (s t z : ℤ) : ℤ :=
  (rules.map (fun r => clippedZ r s t z)).foldr max 0

/-- Integer shadow of the centroid denominator: 300 times the sum of
the aggregated curve over the output universe. -/
def denZ (s t : ℤ) : ℤ :=
  ((List.range 101).map (fun n : ℕ => aggregatedZ s t (n : ℤ))).sum

/-- Integer shadow of the centroid numerator: 300 times the sum of
z times the aggregated curve over the output universe. -/
def numZ (s t : ℤ) : ℤ :=
  ((List.range 101).map (fun n : ℕ => (n : ℤ) * aggregatedZ s t (n : ℤ))).sum

/-! Basic bounds on triangular membership degrees. -/

lemma trimf_nonneg (a b c x : ℚ) : 0 ≤ trimf a b c x := by
  rw [trimf]
  split_ifs with h1 h2 h3
  · norm_num
  · apply div_nonneg <;> linarith [h2.1, h2.2]
  · apply div_nonneg <;> linarith [h3.1, h3.2]
  · exact le_refl 0

lemma trimf_le_one (a b c x : ℚ) : trimf a b c x ≤ 1 := by
  rw [trimf]
  split_ifs with h1 h2 h3
  · exact le_refl 1
  · rw [div_le_one (by linarith [h2.1, h2.2])]
    linarith [h2.2]
  · rw [div_le_one (by linarith [h3.1, h3.2])]
    linarith [h3.1]
  · norm_num

lemma degree_nonneg (tm : InTerm) (i : Inputs) : 0 ≤ tm.degree i := by
  cases tm <;> exact trimf_nonneg _ _ _ _

lemma degree_le_one (tm : InTerm) (i : Inputs) : tm.degree i ≤ 1 := by
  cases tm <;> exact trimf_le_one _ _ _ _

lemma outDegree_nonneg (tm : OutTerm) (z : ℚ) : 0 ≤ tm.degree z := by
  cases tm <;> exact trimf_nonneg _ _ _ _

lemma outDegree_le_one (tm : OutTerm) (z : ℚ) : tm.degree z ≤ 1 := by
  cases tm <;> exact trimf_le_one _ _ _ _

lemma eval_bounds (e : AntExpr) (i : Inputs) :
    0 ≤ e.eval i ∧ e.eval i ≤ 1 := by
  induction e with
  | leaf tm => exact ⟨degree_nonneg tm i, degree_le_one tm i⟩
  | and l r ihl ihr =>
    exact ⟨le_min ihl.1 ihr.1, le_trans (min_le_left _ _) ihl.2⟩
  | or l r ihl ihr =>
    exact ⟨le_trans ihl.1 (le_max_left _ _), max_le ihl.2 ihr.2⟩
  | not e ih =>
    simp only [AntExpr.eval]
    constructor
    · linarith [ih.2]
    · linarith [ih.1]

lemma firing_nonneg (r : Rule) (i : Inputs) : 0 ≤ firing r i :=
  (eval_bounds r.ant i).1

lemma firing_le_one (r : Rule) (i : Inputs) : firing r i ≤ 1 :=
  (eval_bounds r.ant i).2

lemma clipped_nonneg (r : Rule) (i : Inputs) (z : ℚ) : 0 ≤ clipped r i z :=
  le_min (firing_nonneg r i) (outDegree_nonneg r.cons z)

lemma clipped_le_one (r : Rule) (i : Inputs) (z : ℚ) : clipped r i z ≤ 1 :=
  le_trans (min_le_left _ _) (firing_le_one r i)

/-! Folding with max over a list. -/

lemma foldr_max_nonneg (l : List ℚ) : 0 ≤ l.foldr max 0 := by
  induction l with
  | nil => exact le_refl 0
  | cons a l ih => exact le_trans ih (le_max_right a _)

lemma le_foldr_max (l : List ℚ) (x : ℚ) (h : x ∈ l) : x ≤ l.foldr max 0 := by
  induction l with
  | nil => simp at h
  | cons a l ih =>
    rcases List.mem_cons.1 h with rfl | h
    · exact le_max_left x _
    · exact le_trans (ih h) (le_max_right a _)

lemma foldr_max_le (l : List ℚ) (c : ℚ) (h0 : 0 ≤ c)
    (h : ∀ x ∈ l, x ≤ c) : l.foldr max 0 ≤ c := by
  induction l with
  | nil => exact h0
  | cons a l ih =>
    exact max_le (h a (List.mem_cons_self a l))
      (ih fun x hx => h x (List.mem_cons_of_mem a hx))

lemma aggregated_def (i : Inputs) (z : ℚ) :
    aggregated i z = (rules.map (fun r => clipped r i z)).foldr max 0 := rfl

lemma aggregated_nonneg (i : Inputs) (z : ℚ) : 0 ≤ aggregated i z := by
  rw [aggregated_def]
  exact foldr_max_nonneg _

lemma aggregated_le_one (i : Inputs) (z : ℚ) : aggregated i z ≤ 1 := by
  rw [aggregated_def]
  refine foldr_max_le _ 1 (by norm_num) ?_
  intro x hx
  rcases List.mem_map.1 hx with ⟨r, _, rfl⟩
  exact clipped_le_one r i z

lemma clipped_le_aggregated (r : Rule) (hr : r ∈ rules) (i : Inputs) (z : ℚ) :
    clipped r i z ≤ aggregated i z := by
  rw [aggregated_def]
  exact le_foldr_max _ _ (List.mem_map_of_mem _ hr)

/-! The output universe. -/

lemma outUniverse_bounds (q : ℚ) (h : q ∈ outUniverse) : 0 ≤ q ∧ q ≤ 100 := by
  rcases List.mem_map.1 h with ⟨n, hn, rfl⟩
  have hlt : n < 101 := List.mem_range.1 hn
  have hle : n ≤ 100 := by omega
  exact ⟨Nat.cast_nonneg n, by exact_mod_cast hle⟩

lemma zero_mem_outUniverse : (0 : ℚ) ∈ outUniverse :=
  List.mem_map.2 ⟨0, List.mem_range.2 (show 0 < 101 by norm_num), Nat.cast_zero⟩

lemma fifty_mem_outUniverse : (50 : ℚ) ∈ outUniverse :=
  List.mem_map.2 ⟨50, List.mem_range.2 (show 50 < 101 by norm_num), by norm_num⟩

/-! The centroid step of inference. -/

lemma infer_eq_centroid (i : Inputs) : infer i = centroid (aggregated i) := rfl

lemma aggSum_nonneg (i : Inputs) : 0 ≤ (outUniverse.map (aggregated i)).sum := by
  apply List.sum_nonneg
  intro x hx
  rcases List.mem_map.1 hx with ⟨q, _, rfl⟩
  exact aggregated_nonneg i q

lemma infer_some_of_sum_ne (i : Inputs)
    (h : (outUniverse.map (aggregated i)).sum ≠ 0) :
    infer i = some ((outUniverse.map (fun z => z * aggregated i z)).sum /
      (outUniverse.map (aggregated i)).sum) := by
  rw [infer_eq_centroid, centroid, if_neg h]

lemma infer_none_of_sum_eq (i : Inputs)
    (h : (outUniverse.map (aggregated i)).sum = 0) : infer i = none := by
  rw [infer_eq_centroid, centroid, if_pos h]

lemma infer_mem_bounds (i : Inputs) (v : ℚ) (h : infer i = some v) :
    0 ≤ v ∧ v ≤ 100 := by
  by_cases hs : (outUniverse.map (aggregated i)).sum = 0
  · rw [infer_none_of_sum_eq i hs] at h
    cases h
  · rw [infer_some_of_sum_ne i hs] at h
    have hden : 0 < (outUniverse.map (aggregated i)).sum :=
      lt_of_le_of_ne (aggSum_nonneg i) (Ne.symm hs)
    have hnum : 0 ≤ (outUniverse.map (fun z => z * aggregated i z)).sum := by
      apply List.sum_nonneg
      intro x hx
      rcases List.mem_map.1 hx with ⟨q, hq, rfl⟩
      exact mul_nonneg (outUniverse_bounds q hq).1 (aggregated_nonneg i q)
    have hle : (outUniverse.map (fun z => z * aggregated i z)).sum ≤
        100 * (outUniverse.map (aggregated i)).sum := by
      rw [← List.sum_map_mul_left]
      apply List.sum_le_sum
      intro q hq
      exact mul_le_mul_of_nonneg_right (outUniverse_bounds q hq).2
        (aggregated_nonneg i q)
    have hv : v = (outUniverse.map (fun z => z * aggregated i z)).sum /
        (outUniverse.map (aggregated i)).sum := by
      exact (Option.some.injEq _ _ ▸ h).symm
    constructor
    · rw [hv]
      exact div_nonneg hnum (le_of_lt hden)
    · rw [hv, div_le_iff₀ hden]
      linarith

/-! Casting the integer shadow back to the rational pipeline. -/

lemma int_cast_min (m n : ℤ) : ((min m n : ℤ) : ℚ) = min (m : ℚ) (n : ℚ) := by
  rcases le_total m n with h | h
  · rw [min_eq_left h, min_eq_left (by exact_mod_cast h)]
  · rw [min_eq_right h, min_eq_right (by exact_mod_cast h)]

lemma int_cast_max (m n : ℤ) : ((max m n : ℤ) : ℚ) = max (m : ℚ) (n : ℚ) := by
  rcases le_total m n with h | h
  · rw [max_eq_right h, max_eq_right (by exact_mod_cast h)]
  · rw [max_eq_left h, max_eq_left (by exact_mod_cast h)]

lemma mul300_min (x y : ℚ) : 300 * min x y = min (300 * x) (300 * y) := by
  rcases le_total x y with h | h
  · rw [min_eq_left h, min_eq_left (by linarith)]
  · rw [min_eq_right h, min_eq_right (by linarith)]

lemma mul300_max (x y : ℚ) : 300 * max x y = max (300 * x) (300 * y) := by
  rcases le_total x y with h | h
  · rw [max_eq_right h, max_eq_right (by linarith)]
  · rw [max_eq_left h, max_eq_left (by linarith)]

lemma trimfZ_cast (a b c x : ℤ) (h1 : a < b → (b - a) ∣ 300)
    (h2 : b < c → (c - b) ∣ 300) :
    ((trimfZ a b c x : ℤ) : ℚ) = 300 * trimf (a : ℚ) (b : ℚ) (c : ℚ) (x : ℚ) := by
  rw [trimfZ, trimf]
  by_cases hxb : x = b
  · have hq : (x : ℚ) = (b : ℚ) := by exact_mod_cast hxb
    rw [if_pos hxb, if_pos hq]
    norm_num
  · have hq : ¬((x : ℚ) = (b : ℚ)) := fun h => hxb (by exact_mod_cast h)
    rw [if_neg hxb, if_neg hq]
    by_cases hup : a < x ∧ x < b
    · have hupq : (a : ℚ) < (x : ℚ) ∧ (x : ℚ) < (b : ℚ) :=
        ⟨by exact_mod_cast hup.1, by exact_mod_cast hup.2⟩
      rw [if_pos hup, if_pos hupq]
      have hd : (b - a) ∣ 300 := h1 (lt_trans hup.1 hup.2)
      have hba : (a : ℚ) < b := by exact_mod_cast lt_trans hup.1 hup.2
      have hne : (b : ℚ) - a ≠ 0 := by linarith
      push_cast [Int.cast_div_charZero hd]
      field_simp
    · have hupq : ¬((a : ℚ) < (x : ℚ) ∧ (x : ℚ) < (b : ℚ)) :=
        fun h => hup ⟨by exact_mod_cast h.1, by exact_mod_cast h.2⟩
      rw [if_neg hup, if_neg hupq]
      by_cases hdn : b < x ∧ x < c
      · have hdnq : (b : ℚ) < (x : ℚ) ∧ (x : ℚ) < (c : ℚ) :=
          ⟨by exact_mod_cast hdn.1, by exact_mod_cast hdn.2⟩
        rw [if_pos hdn, if_pos hdnq]
        have hd : (c - b) ∣ 300 := h2 (lt_trans hdn.1 hdn.2)
        have hcb : (b : ℚ) < c := by exact_mod_cast lt_trans hdn.1 hdn.2
        have hne : (c : ℚ) - b ≠ 0 := by linarith
        push_cast [Int.cast_div_charZero hd]
        field_simp
      · have hdnq : ¬((b : ℚ) < (x : ℚ) ∧ (x : ℚ) < (c : ℚ)) :=
          fun h => hdn ⟨by exact_mod_cast h.1, by exact_mod_cast h.2⟩
        rw [if_neg hdn, if_neg hdnq]
        norm_num

lemma degreeZ_cast (tm : InTerm) (s t : ℤ) :
    ((tm.degreeZ s t : ℤ) : ℚ) = 300 * tm.degree ⟨(s : ℚ), (t : ℚ)⟩ := by
  cases tm with
  | dry =>
    have h := trimfZ_cast 0 0 50 s (fun h => by norm_num at h) (fun _ => by norm_num)
    simp only [InTerm.degreeZ, InTerm.degree]
    rw [h]
    norm_num
  | moist =>
    have h := trimfZ_cast 20 50 80 s (fun _ => by norm_num) (fun _ => by norm_num)
    simp only [InTerm.degreeZ, InTerm.degree]
    rw [h]
    norm_num
  | wet =>
    have h := trimfZ_cast 50 100 100 s (fun _ => by norm_num) (fun h => by norm_num at h)
    simp only [InTerm.degreeZ, InTerm.degree]
    rw [h]
    norm_num
  | cold =>
    have h := trimfZ_cast 0 0 20 t (fun h => by norm_num at h) (fun _ => by norm_num)
    simp only [InTerm.degreeZ, InTerm.degree]
    rw [h]
    norm_num
  | warm =>
    have h := trimfZ_cast 10 25 40 t (fun _ => by norm_num) (fun _ => by norm_num)
    simp only [InTerm.degreeZ, InTerm.degree]
    rw [h]
    norm_num
  | hot =>
    have h := trimfZ_cast 30 50 50 t (fun _ => by norm_num) (fun h => by norm_num at h)
    simp only [InTerm.degreeZ, InTerm.degree]
    rw [h]
    norm_num

lemma outDegreeZ_cast (tm : OutTerm) (z : ℤ) :
    ((tm.degreeZ z : ℤ) : ℚ) = 300 * tm.degree (z : ℚ) := by
  cases tm with
  | low =>
    have h := trimfZ_cast 0 0 50 z (fun h => by norm_num at h) (fun _ => by norm_num)
    simp only [OutTerm.degreeZ, OutTerm.degree]
    rw [h]
    norm_num
  | medium =>
    have h := trimfZ_cast 20 50 80 z (fun _ => by norm_num) (fun _ => by norm_num)
    simp only [OutTerm.degreeZ, OutTerm.degree]
    rw [h]
    norm_num
  | high =>
    have h := trimfZ_cast 50 100 100 z (fun _ => by norm_num) (fun h => by norm_num at h)
    simp only [OutTerm.degreeZ, OutTerm.degree]
    rw [h]
    norm_num

lemma evalZ_cast (e : AntExpr) (s t : ℤ) :
    ((e.evalZ s t : ℤ) : ℚ) = 300 * e.eval ⟨(s : ℚ), (t : ℚ)⟩ := by
  induction e with
  | leaf tm => exact degreeZ_cast tm s t
  | and l r ihl ihr =>
    simp only [AntExpr.evalZ, AntExpr.eval]
    rw [int_cast_min, ihl, ihr, mul300_min]
  | or l r ihl ihr =>
    simp only [AntExpr.evalZ, AntExpr.eval]
    rw [int_cast_max, ihl, ihr, mul300_max]
  | not e ih =>
    simp only [AntExpr.evalZ, AntExpr.eval]
    push_cast
    rw [ih]
    ring

lemma clippedZ_cast (r : Rule) (s t z : ℤ) :
    ((clippedZ r s t z : ℤ) : ℚ) = 300 * clipped r ⟨(s : ℚ), (t : ℚ)⟩ (z : ℚ) := by
  rw [clippedZ, clipped, firing, int_cast_min, evalZ_cast, outDegreeZ_cast,
    mul300_min]

lemma aggregated_foldr_cast (rs : List Rule) (s t z : ℤ) :
    (((rs.map (fun r => clippedZ r s t z)).foldr max 0 : ℤ) : ℚ) =
      300 * (rs.map (fun r => clipped r ⟨(s : ℚ), (t : ℚ)⟩ (z : ℚ))).foldr max 0 := by
  induction rs with
  | nil => norm_num
  | cons r rs ih =>
    simp only [List.map_cons, List.foldr_cons]
    rw [int_cast_max, ih, clippedZ_cast, mul300_max]

lemma aggregatedZ_cast (s t z : ℤ) :
    ((aggregatedZ s t z : ℤ) : ℚ) = 300 * aggregated ⟨(s : ℚ), (t : ℚ)⟩ (z : ℚ) := by
  rw [aggregatedZ, aggregated_def]
  exact aggregated_foldr_cast rules s t z

lemma den_sum_cast (l : List ℕ) (s t : ℤ) :
    (((l.map (fun n : ℕ => aggregatedZ s t (n : ℤ))).sum : ℤ) : ℚ) =
      300 * ((l.map (fun n : ℕ => (n : ℚ))).map (aggregated ⟨(s : ℚ), (t : ℚ)⟩)).sum := by
  induction l with
  | nil => norm_num
  | cons n l ih =>
    simp only [List.map_cons, List.sum_cons]
    rw [Int.cast_add, ih, aggregatedZ_cast]
    push_cast
    ring

lemma num_sum_cast (l : List ℕ) (s t : ℤ) :
    (((l.map (fun n : ℕ => (n : ℤ) * aggregatedZ s t (n : ℤ))).sum : ℤ) : ℚ) =
      300 * ((l.map (fun n : ℕ => (n : ℚ))).map
        (fun z => z * aggregated ⟨(s : ℚ), (t : ℚ)⟩ z)).sum := by
  induction l with
  | nil => norm_num
  | cons n l ih =>
    simp only [List.map_cons, List.sum_cons]
    rw [Int.cast_add, Int.cast_mul, ih, aggregatedZ_cast]
    push_cast
    ring

lemma denZ_cast (s t : ℤ) :
    ((denZ s t : ℤ) : ℚ) =
      300 * (outUniverse.map (aggregated ⟨(s : ℚ), (t : ℚ)⟩)).sum := by
  rw [denZ, outUniverse]
  exact den_sum_cast (List.range 101) s t

lemma numZ_cast (s t : ℤ) :
    ((numZ s t : ℤ) : ℚ) =
      300 * (outUniverse.map
        (fun z => z * aggregated ⟨(s : ℚ), (t : ℚ)⟩ z)).sum := by
  rw [numZ, outUniverse]
  exact num_sum_cast (List.range 101) s t

/-- The whole inference, reduced to the integer shadow: for integer
inputs the crisp output is numZ / denZ, and inference fails exactly
when denZ vanishes. -/
lemma infer_int (s t : ℤ) :
    infer ⟨(s : ℚ), (t : ℚ)⟩ =
      if denZ s t = 0 then none
      else some ((numZ s t : ℚ) / (denZ s t : ℚ)) := by
  by_cases hd : denZ s t = 0
  · rw [if_pos hd]
    apply infer_none_of_sum_eq
    have h := denZ_cast s t
    rw [hd, Int.cast_zero] at h
    linarith
  · rw [if_neg hd]
    have hsum : (outUniverse.map (aggregated ⟨(s : ℚ), (t : ℚ)⟩)).sum ≠ 0 := by
      intro h0
      apply hd
      have h := denZ_cast s t
      rw [h0, mul_zero] at h
      exact_mod_cast h
    rw [infer_some_of_sum_ne _ hsum]
    congr 1
    have hden := denZ_cast s t
    have hnum := numZ_cast s t
    rw [hnum, hden, mul_div_mul_left _ _ (show (300 : ℚ) ≠ 0 by norm_num)]

/-! Concrete evaluations of the integer shadow, by kernel reduction. -/

set_option maxRecDepth 8000 in
lemma denZ_eval_10_40 : denZ 10 40 = 5700 := by decide

set_option maxRecDepth 8000 in
lemma numZ_eval_10_40 : numZ 10 40 = 460650 := by decide

set_option maxRecDepth 8000 in
lemma denZ_eval_90_15 : denZ 90 15 = 7320 := by decide

set_option maxRecDepth 8000 in
lemma numZ_eval_90_15 : numZ 90 15 = 123960 := by decide

set_option maxRecDepth 8000 in
lemma denZ_eval_50_25 : denZ 50 25 = 9000 := by decide

set_option maxRecDepth 8000 in
lemma numZ_eval_50_25 : numZ 50 25 = 450000 := by decide

set_option maxRecDepth 8000 in
lemma denZ_eval_50_10 : denZ 50 10 = 5700 := by decide

set_option maxRecDepth 8000 in
lemma numZ_eval_50_10 : numZ 50 10 = 109350 := by decide

set_option maxRecDepth 8000 in
lemma denZ_eval_30_35 : denZ 30 35 = 6820 := by decide

set_option maxRecDepth 8000 in
lemma denZ_eval_50_45 : denZ 50 45 = 0 := by decide

lemma aggSum_30_35_ne : (outUniverse.map (aggregated ⟨30, 35⟩)).sum ≠ 0 := by
  have h := denZ_cast 30 35
  rw [denZ_eval_30_35] at h
  norm_num at h
  intro h0
  rw [h0] at h
  norm_num at h

/-! Inference when no rule fires. -/

lemma clipped_zero_of_firing (r : Rule) (i : Inputs) (z : ℚ)
    (h : firing r i = 0) : clipped r i z = 0 := by
  rw [clipped, h]
  exact min_eq_left (outDegree_nonneg r.cons z)

lemma aggregated_zero_of_firing (i : Inputs)
    (h : ∀ r ∈ rules, firing r i = 0) : ∀ z : ℚ, aggregated i z = 0 := by
  intro z
  apply le_antisymm
  · rw [aggregated_def]
    refine foldr_max_le _ 0 (le_refl 0) ?_
    intro x hx
    rcases List.mem_map.1 hx with ⟨r, hr, rfl⟩
    rw [clipped_zero_of_firing r i z (h r hr)]
  · exact aggregated_nonneg i z

lemma infer_none_of_firing (i : Inputs)
    (h : ∀ r ∈ rules, firing r i = 0) : infer i = none := by
  apply infer_none_of_sum_eq
  apply List.sum_eq_zero
  intro x hx
  rcases List.mem_map.1 hx with ⟨q, _, rfl⟩
  exact aggregated_zero_of_firing i h q

/-! The simulation object across compute calls. -/

lemma computeSeq_outputs (s : SimState) (is : List Inputs) :
    (computeSeq s is).1 = is.map infer := by
  induction is generalizing s with
  | nil => rfl
  | cons i is ih => simp [computeSeq, compute, ih]

/-! Claim theorems. -/

/-- C1.  End-to-end inference with the configured rule base and
triangular terms produces crisp outputs in the stated qualitative
bands: (soil 10, temp 40) gives 3071/38, strictly greater than 65;
(90, 15) gives 1033/61, strictly less than 20; (50, 25) gives exactly
50, inside the band 35 to 55; (50, 10) gives 729/38, strictly less
than 25. -/
theorem claim1_concrete_scenarios :
    (infer ⟨10, 40⟩ = some (3071 / 38) ∧ (65 : ℚ) < 3071 / 38) ∧
    (infer ⟨90, 15⟩ = some (1033 / 61) ∧ (1033 : ℚ) / 61 < 20) ∧
    (infer ⟨50, 25⟩ = some 50 ∧ (35 : ℚ) ≤ 50 ∧ (50 : ℚ) ≤ 55) ∧
    (infer ⟨50, 10⟩ = some (729 / 38) ∧ (729 : ℚ) / 38 < 25) := by
  refine ⟨⟨?_, by norm_num⟩, ⟨?_, by norm_num⟩,
    ⟨?_, by norm_num, by norm_num⟩, ⟨?_, by norm_num⟩⟩
  · have h := infer_int 10 40
    rw [denZ_eval_10_40, numZ_eval_10_40] at h
    norm_num at h
    exact h
  · have h := infer_int 90 15
    rw [denZ_eval_90_15, numZ_eval_90_15] at h
    norm_num at h
    exact h
  · have h := infer_int 50 25
    rw [denZ_eval_50_25, numZ_eval_50_25] at h
    norm_num at h
    exact h
  · have h := infer_int 50 10
    rw [denZ_eval_50_10, numZ_eval_50_10] at h
    norm_num at h
    exact h

/-- C2.  For triangular breakpoints a ≤ b ≤ c the degree is 0 strictly
outside [a, c], equals 1 at x = b, is the rising ramp (x - a) / (b - a)
on [a, b] when a < b, is the falling ramp (c - x) / (c - b) on [b, c]
when b < c, and always lies in [0, 1]; the degenerate cases a = b and
b = c are the instances where one ramp clause is vacuous, leaving a
one-sided ramp. -/
theorem claim2_trimf_shape (a b c x : ℚ) (hab : a ≤ b) (hbc : b ≤ c) :
    ((x < a ∨ c < x) → trimf a b c x = 0) ∧
    trimf a b c b = 1 ∧
    (a < b → a ≤ x → x ≤ b → trimf a b c x = (x - a) / (b - a)) ∧
    (b < c → b ≤ x → x ≤ c → trimf a b c x = (c - x) / (c - b)) ∧
    0 ≤ trimf a b c x ∧ trimf a b c x ≤ 1 := by
  refine ⟨?_, ?_, ?_, ?_, trimf_nonneg a b c x, trimf_le_one a b c x⟩
  · intro h
    rw [trimf]
    split_ifs with h1 h2 h3
    · exfalso
      rcases h with h | h <;> linarith
    · exfalso
      rcases h with h | h <;> linarith [h2.1, h2.2]
    · exfalso
      rcases h with h | h <;> linarith [h3.1, h3.2]
    · rfl
  · rw [trimf, if_pos rfl]
  · intro hab' hax hxb
    rw [trimf]
    by_cases hb : x = b
    · rw [if_pos hb, hb, div_self (show b - a ≠ 0 by linarith)]
    · have hxb' : x < b := lt_of_le_of_ne hxb hb
      rw [if_neg hb]
      by_cases ha : x = a
      · rw [if_neg (fun hc => absurd hc.1 (by rw [ha]; exact lt_irrefl a)),
          if_neg (fun hc => absurd hc.1 (by linarith)), ha, sub_self,
          zero_div]
      · have hax' : a < x := lt_of_le_of_ne hax (Ne.symm ha)
        rw [if_pos ⟨hax', hxb'⟩]
  · intro hbc' hbx hxc
    rw [trimf]
    by_cases hb : x = b
    · rw [if_pos hb, hb, div_self (show c - b ≠ 0 by linarith)]
    · have hbx' : b < x := lt_of_le_of_ne hbx (Ne.symm hb)
      rw [if_neg hb, if_neg (fun hc => absurd hc.2 (by linarith))]
      by_cases hc : x = c
      · rw [if_neg (fun hd => absurd hd.2 (by rw [hc]; exact lt_irrefl c)),
          hc, sub_self, zero_div]
      · have hxc' : x < c := lt_of_le_of_ne hxc hc
        rw [if_pos ⟨hbx', hxc'⟩]

/-- Witness for C2 at the moist triangle (20, 50, 80) and x = 35. -/
theorem claim2_witness :
    (20 : ℚ) ≤ 50 ∧ (50 : ℚ) ≤ 80 ∧
    ((((35 : ℚ) < 20 ∨ (80 : ℚ) < 35) → trimf 20 50 80 35 = 0) ∧
      trimf 20 50 80 50 = 1 ∧
      ((20 : ℚ) < 50 → (20 : ℚ) ≤ 35 → (35 : ℚ) ≤ 50 →
        trimf 20 50 80 35 = (35 - 20) / (50 - 20)) ∧
      ((50 : ℚ) < 80 → (50 : ℚ) ≤ 35 → (35 : ℚ) ≤ 80 →
        trimf 20 50 80 35 = (80 - 35) / (80 - 50)) ∧
      0 ≤ trimf 20 50 80 35 ∧ trimf 20 50 80 35 ≤ 1) :=
  ⟨by norm_num, by norm_num,
    claim2_trimf_shape 20 50 80 35 (by norm_num) (by norm_num)⟩

/-- C3.  The firing strength of each configured rule is the minimum
(Zadeh AND) of the membership degrees of its AND-connected antecedent
terms at the given inputs; the single-antecedent rule 5 fires at the
wet degree itself; and every firing strength lies in [0, 1]. -/
theorem claim3_firing_strength (i : Inputs) :
    firing rule1 i = min (InTerm.degree .dry i) (InTerm.degree .hot i) ∧
    firing rule2 i = min (InTerm.degree .dry i) (InTerm.degree .warm i) ∧
    firing rule3 i = min (InTerm.degree .moist i) (InTerm.degree .warm i) ∧
    firing rule4 i = min (InTerm.degree .moist i) (InTerm.degree .cold i) ∧
    firing rule5 i = InTerm.degree .wet i ∧
    (0 ≤ firing rule1 i ∧ firing rule1 i ≤ 1) ∧
    (0 ≤ firing rule2 i ∧ firing rule2 i ≤ 1) ∧
    (0 ≤ firing rule3 i ∧ firing rule3 i ≤ 1) ∧
    (0 ≤ firing rule4 i ∧ firing rule4 i ≤ 1) ∧
    (0 ≤ firing rule5 i ∧ firing rule5 i ≤ 1) :=
  ⟨rfl, rfl, rfl, rfl, rfl,
    ⟨firing_nonneg rule1 i, firing_le_one rule1 i⟩,
    ⟨firing_nonneg rule2 i, firing_le_one rule2 i⟩,
    ⟨firing_nonneg rule3 i, firing_le_one rule3 i⟩,
    ⟨firing_nonneg rule4 i, firing_le_one rule4 i⟩,
    ⟨firing_nonneg rule5 i, firing_le_one rule5 i⟩⟩

/-- C4.  At every point z of the output universe (indeed every
rational z) the aggregated curve equals the maximum over the five
rules of min(firing strength, consequent degree at z), and no clipped
curve exceeds the aggregate, so the aggregate never exceeds their
pointwise maximum. -/
theorem claim4_aggregation (i : Inputs) (z : ℚ) :
    aggregated i z =
      max (clipped rule1 i z) (max (clipped rule2 i z)
        (max (clipped rule3 i z) (max (clipped rule4 i z)
          (clipped rule5 i z)))) ∧
    clipped rule1 i z ≤ aggregated i z ∧
    clipped rule2 i z ≤ aggregated i z ∧
    clipped rule3 i z ≤ aggregated i z ∧
    clipped rule4 i z ≤ aggregated i z ∧
    clipped rule5 i z ≤ aggregated i z := by
  refine ⟨?_, clipped_le_aggregated rule1 (by decide) i z,
    clipped_le_aggregated rule2 (by decide) i z,
    clipped_le_aggregated rule3 (by decide) i z,
    clipped_le_aggregated rule4 (by decide) i z,
    clipped_le_aggregated rule5 (by decide) i z⟩
  rw [aggregated_def]
  simp only [rules, List.map_cons, List.map_nil, List.foldr_cons,
    List.foldr_nil]
  rw [max_eq_left (clipped_nonneg rule5 i z)]

/-- C5.  When the aggregated output curve is not identically zero over
the output universe, the crisp output is the discrete centroid — the
sum of z times the aggregate over the sample points 0, 1, ..., 100
divided by the sum of the aggregate — and every crisp output lies in
the universe bounds [0, 100]. -/
theorem claim5_centroid (i : Inputs)
    (h : (outUniverse.map (aggregated i)).sum ≠ 0) :
    infer i = some ((outUniverse.map (fun z => z * aggregated i z)).sum /
      (outUniverse.map (aggregated i)).sum) ∧
    ∀ v, infer i = some v → 0 ≤ v ∧ v ≤ 100 :=
  ⟨infer_some_of_sum_ne i h, fun v hv => infer_mem_bounds i v hv⟩

/-- Witness for C5 at inputs (soil 30, temp 35), the first test case of
fuzzy.py. -/
theorem claim5_witness :
    (outUniverse.map (aggregated ⟨30, 35⟩)).sum ≠ 0 ∧
    (infer ⟨30, 35⟩ =
        some ((outUniverse.map (fun z => z * aggregated ⟨30, 35⟩ z)).sum /
          (outUniverse.map (aggregated ⟨30, 35⟩)).sum) ∧
      ∀ v, infer ⟨30, 35⟩ = some v → 0 ≤ v ∧ v ≤ 100) :=
  ⟨aggSum_30_35_ne, claim5_centroid ⟨30, 35⟩ aggSum_30_35_ne⟩

/-- C6.  For every input assignment at which all five rules fire with
strength 0, the aggregated curve is identically zero and inference
reports failure (none) rather than any default crisp value. -/
theorem claim6_no_applicable_rule (i : Inputs)
    (h : ∀ r ∈ rules, firing r i = 0) :
    (∀ z : ℚ, aggregated i z = 0) ∧ infer i = none :=
  ⟨aggregated_zero_of_firing i h, infer_none_of_firing i h⟩

/-- Witness for C6 at inputs (soil 0, temp 0), where no rule fires. -/
theorem claim6_witness :
    (∀ r ∈ rules, firing r ⟨0, 0⟩ = 0) ∧
    ((∀ z : ℚ, aggregated ⟨0, 0⟩ z = 0) ∧ infer ⟨0, 0⟩ = none) :=
  ⟨by with_unfolding_all decide,
    claim6_no_applicable_rule ⟨0, 0⟩ (by with_unfolding_all decide)⟩

/-- C7 counterexample.  Temperature 45 lies in the temperature
universe [0, 50], yet at soil moisture exactly 50 inference fails
(returns none: moist is the only non-zero soil term, hot the only
non-zero temperature term, and no rule combines them), refuting the
claim that soil 50 never fails for any universe temperature. -/
theorem claim7_counterexample :
    (0 : ℚ) ≤ 45 ∧ (45 : ℚ) ≤ 50 ∧ infer ⟨50, 45⟩ = none := by
  refine ⟨by norm_num, by norm_num, ?_⟩
  have h := infer_int 50 45
  rw [denZ_eval_50_45] at h
  norm_num at h
  exact h

/-- C7 amended.  For soil moisture exactly 50 and every temperature t
with 0 ≤ t < 40 (where cold or warm still has non-zero degree),
inference does not fail: it returns a defined crisp value inside
[0, 100].  For t in [40, 50] it fails, as the counterexample shows. -/
theorem claim7_amended (t : ℚ) (h0 : 0 ≤ t) (h40 : t < 40) :
    ∃ v, infer ⟨50, t⟩ = some v ∧ 0 ≤ v ∧ v ≤ 100 := by
  have hmoist : InTerm.degree .moist ⟨50, t⟩ = 1 := by
    simp [InTerm.degree, trimf]
  have key : ∃ z0 : ℚ, z0 ∈ outUniverse ∧ 0 < aggregated ⟨50, t⟩ z0 := by
    by_cases hc : t ≤ 10
    · refine ⟨0, zero_mem_outUniverse, ?_⟩
      have hcold : 0 < InTerm.degree .cold ⟨50, t⟩ := by
        simp only [InTerm.degree, trimf]
        by_cases ht0 : t = 0
        · rw [if_pos ht0]
          norm_num
        · have htpos : 0 < t := lt_of_le_of_ne h0 (Ne.symm ht0)
          rw [if_neg ht0, if_neg (fun hh => absurd (lt_trans hh.1 hh.2)
            (lt_irrefl (0 : ℚ))), if_pos ⟨htpos, by linarith⟩]
          apply div_pos <;> linarith
      have hfir : firing rule4 ⟨50, t⟩ = InTerm.degree .cold ⟨50, t⟩ := by
        show min (InTerm.degree .moist ⟨50, t⟩) (InTerm.degree .cold ⟨50, t⟩) = _
        rw [hmoist]
        exact min_eq_right (degree_le_one .cold ⟨50, t⟩)
      have hlow : OutTerm.degree .low 0 = 1 := by
        simp [OutTerm.degree, trimf]
      have hclip : clipped rule4 ⟨50, t⟩ 0 = InTerm.degree .cold ⟨50, t⟩ := by
        show min (firing rule4 ⟨50, t⟩) (OutTerm.degree .low 0) = _
        rw [hfir, hlow]
        exact min_eq_left (degree_le_one .cold ⟨50, t⟩)
      exact lt_of_lt_of_le hcold
        (hclip ▸ clipped_le_aggregated rule4 (by decide) ⟨50, t⟩ 0)
    · push_neg at hc
      refine ⟨50, fifty_mem_outUniverse, ?_⟩
      have hwarm : 0 < InTerm.degree .warm ⟨50, t⟩ := by
        simp only [InTerm.degree, trimf]
        rcases lt_trichotomy t 25 with hlt | heq | hgt
        · rw [if_neg (fun hh => absurd hlt (by rw [hh]; exact lt_irrefl 25)),
            if_pos ⟨hc, hlt⟩]
          apply div_pos <;> linarith
        · rw [if_pos heq]
          norm_num
        · rw [if_neg (fun hh => absurd hgt (by rw [hh]; exact lt_irrefl 25)),
            if_neg (fun hh => absurd hh.2 (by linarith)), if_pos ⟨hgt, h40⟩]
          apply div_pos <;> linarith
      have hfir : firing rule3 ⟨50, t⟩ = InTerm.degree .warm ⟨50, t⟩ := by
        show min (InTerm.degree .moist ⟨50, t⟩) (InTerm.degree .warm ⟨50, t⟩) = _
        rw [hmoist]
        exact min_eq_right (degree_le_one .warm ⟨50, t⟩)
      have hmed : OutTerm.degree .medium 50 = 1 := by
        simp [OutTerm.degree, trimf]
      have hclip : clipped rule3 ⟨50, t⟩ 50 = InTerm.degree .warm ⟨50, t⟩ := by
        show min (firing rule3 ⟨50, t⟩) (OutTerm.degree .medium 50) = _
        rw [hfir, hmed]
        exact min_eq_left (degree_le_one .warm ⟨50, t⟩)
      exact lt_of_lt_of_le hwarm
        (hclip ▸ clipped_le_aggregated rule3 (by decide) ⟨50, t⟩ 50)
  rcases key with ⟨z0, hz0, hpos⟩
  have hsum : (outUniverse.map (aggregated ⟨50, t⟩)).sum ≠ 0 := by
    have hall : ∀ x ∈ outUniverse.map (aggregated ⟨50, t⟩), 0 ≤ x := by
      intro x hx
      rcases List.mem_map.1 hx with ⟨q, _, rfl⟩
      exact aggregated_nonneg _ q
    have hle := List.single_le_sum hall _ (List.mem_map_of_mem _ hz0)
    intro hzero
    rw [hzero] at hle
    linarith
  exact ⟨_, infer_some_of_sum_ne _ hsum,
    infer_mem_bounds _ _ (infer_some_of_sum_ne _ hsum)⟩

/-- Witness for the amended C7 at temperature 25. -/
theorem claim7_witness :
    (0 : ℚ) ≤ 25 ∧ (25 : ℚ) < 40 ∧
    ∃ v, infer ⟨50, 25⟩ = some v ∧ 0 ≤ v ∧ v ≤ 100 :=
  ⟨by norm_num, by norm_num, claim7_amended 25 (by norm_num) (by norm_num)⟩

/-- C8.  Inference is deterministic: the crisp result of a compute call
does not depend on the simulation state left behind by earlier calls,
and when the same inputs are fed first and last in a sequence of calls
on one simulation object the two results are identical. -/
theorem claim8_deterministic (s1 s2 : SimState) (i : Inputs)
    (js : List Inputs) :
    (compute s1 i).1 = (compute s2 i).1 ∧
    (computeSeq s1 (i :: (js ++ [i]))).1.head? =
      (computeSeq s1 (i :: (js ++ [i]))).1.getLast? := by
  refine ⟨rfl, ?_⟩
  rw [computeSeq_outputs]
  have h1 : (i :: (js ++ [i])).map infer =
      (infer i :: js.map infer) ++ [infer i] := by
    simp
  rw [h1, List.getLast?_concat]
  rfl

/-- C9.  The order of rules in the rule base does not affect the
inference result: any permutation of the five configured rules yields
the same crisp output for every input assignment, because max
aggregation over the clipped consequents is commutative and
associative. -/
theorem claim9_rule_order (rs : List Rule) (h : rs.Perm rules)
    (i : Inputs) : inferWith rs i = infer i := by
  have hagg : aggregatedWith rs i = aggregatedWith rules i := by
    funext z
    exact List.Perm.foldr_op_eq (h.map fun r => clipped r i z)
  rw [inferWith, hagg]
  rfl

/-- Witness for C9: the reversed rule base at inputs (30, 35). -/
theorem claim9_witness :
    ([rule5, rule4, rule3, rule2, rule1].Perm rules) ∧
    inferWith [rule5, rule4, rule3, rule2, rule1] ⟨30, 35⟩ =
      infer ⟨30, 35⟩ :=
  ⟨by decide, claim9_rule_order [rule5, rule4, rule3, rule2, rule1]
    (by decide) ⟨30, 35⟩⟩

/-- C10.  The rule base does not cover the whole input space: at soil
moisture 0 and temperature 0 — both inside their universes — dry and
cold are the only input terms with non-zero degree, yet no rule
combines them, so every rule fires with strength 0, the aggregated
curve is identically zero, and inference fails (none) instead of
returning a crisp value. -/
theorem claim10_uncovered_input :
    ((0 : ℚ) ≤ 0 ∧ (0 : ℚ) ≤ 100 ∧ (0 : ℚ) ≤ 50) ∧
    InTerm.degree .dry ⟨0, 0⟩ = 1 ∧ InTerm.degree .cold ⟨0, 0⟩ = 1 ∧
    InTerm.degree .moist ⟨0, 0⟩ = 0 ∧ InTerm.degree .wet ⟨0, 0⟩ = 0 ∧
    InTerm.degree .warm ⟨0, 0⟩ = 0 ∧ InTerm.degree .hot ⟨0, 0⟩ = 0 ∧
    (∀ r ∈ rules, firing r ⟨0, 0⟩ = 0) ∧
    (∀ z : ℚ, aggregated ⟨0, 0⟩ z = 0) ∧
    infer ⟨0, 0⟩ = none := by
  have hf : ∀ r ∈ rules, firing r ⟨0, 0⟩ = 0 := by with_unfolding_all decide
  refine ⟨⟨by norm_num, by norm_num, by norm_num⟩,
    by with_unfolding_all decide, by with_unfolding_all decide,
    by with_unfolding_all decide, by with_unfolding_all decide,
    by with_unfolding_all decide, by with_unfolding_all decide,
    hf, aggregated_zero_of_firing ⟨0, 0⟩ hf,
    infer_none_of_firing ⟨0, 0⟩ hf⟩

end Sprinkler
